import Mathlib

/-!
Shallow embedding of the option-pricer repository (option_pricer.py, greeks.py,
monte_carlo.py, implied_volatility.py) over real arithmetic, together with
theorems settling the specification claims.
-/

open MeasureTheory Real Set

/-! ## Standard normal distribution (scipy.stats.norm.pdf / norm.cdf) -/

/-- Standard normal probability density, `scipy.stats.norm.pdf`. -/
noncomputable def normPdf (x : ℝ) : ℝ := Real.exp (-(x ^ 2) / 2) / Real.sqrt (2 * π)

/-- Standard normal cumulative distribution, `scipy.stats.norm.cdf`. -/
noncomputable def normCdf (x : ℝ) : ℝ := ∫ t in Iic x, normPdf t

lemma normPdf_eq (x : ℝ) :
    normPdf x = (Real.sqrt (2 * π))⁻¹ * Real.exp (-(1 / 2 : ℝ) * x ^ 2) := by
  rw [normPdf, div_eq_inv_mul]
  ring_nf

lemma normPdf_nonneg (x : ℝ) : 0 ≤ normPdf x :=
  div_nonneg (Real.exp_nonneg _) (Real.sqrt_nonneg _)

lemma normPdf_neg (x : ℝ) : normPdf (-x) = normPdf x := by
  simp [normPdf]

lemma continuous_normPdf : Continuous normPdf := by
  unfold normPdf
  exact (Real.continuous_exp.comp (by fun_prop)).div_const _

lemma integrable_normPdf : Integrable normPdf := by
  have h : Integrable (fun x : ℝ => Real.exp (-(1 / 2 : ℝ) * x ^ 2)) :=
    integrable_exp_neg_mul_sq (by norm_num)
  have := h.const_mul (Real.sqrt (2 * π))⁻¹
  refine this.congr ?_
  filter_upwards with x
  rw [normPdf_eq]

lemma sqrt_two_pi_pos : 0 < Real.sqrt (2 * π) :=
  Real.sqrt_pos.2 (by positivity)

lemma integral_normPdf : ∫ x, normPdf x = 1 := by
  have h : ∫ x : ℝ, Real.exp (-(1 / 2 : ℝ) * x ^ 2) = Real.sqrt (π / (1 / 2)) :=
    integral_gaussian (1 / 2)
  have h2 : (π / (1 / 2 : ℝ)) = 2 * π := by ring
  calc ∫ x, normPdf x
      = ∫ x : ℝ, (Real.sqrt (2 * π))⁻¹ * Real.exp (-(1 / 2 : ℝ) * x ^ 2) := by
        congr 1; funext x; rw [normPdf_eq]
    _ = (Real.sqrt (2 * π))⁻¹ * ∫ x : ℝ, Real.exp (-(1 / 2 : ℝ) * x ^ 2) := by
        rw [integral_mul_left]
    _ = 1 := by
        rw [h, h2, inv_mul_cancel₀ (ne_of_gt sqrt_two_pi_pos)]

lemma normCdf_add_neg (x : ℝ) : normCdf x + normCdf (-x) = 1 := by
  have hrefl : normCdf (-x) = ∫ t in Ioi x, normPdf t := by
    have h1 : (∫ t in Iic (-x), normPdf (-t)) = ∫ t in Ioi x, normPdf t := by
      have := integral_comp_neg_Iic (-x) normPdf
      simpa using this
    have h2 : (∫ t in Iic (-x), normPdf t) = ∫ t in Iic (-x), normPdf (-t) := by
      congr 1; funext t; rw [normPdf_neg]
    rw [normCdf, h2, h1]
  rw [normCdf, hrefl,
    intervalIntegral.integral_Iic_add_Ioi integrable_normPdf.integrableOn
      integrable_normPdf.integrableOn,
    integral_normPdf]

lemma normCdf_nonneg (x : ℝ) : 0 ≤ normCdf x :=
  setIntegral_nonneg measurableSet_Iic fun t _ => normPdf_nonneg t

lemma normCdf_le_one (x : ℝ) : normCdf x ≤ 1 := by
  have h := normCdf_add_neg x
  have := normCdf_nonneg (-x)
  linarith

lemma normCdf_sub_eq (x y : ℝ) :
    normCdf y - normCdf x = ∫ t in x..y, normPdf t :=
  intervalIntegral.integral_Iic_sub_Iic
    integrable_normPdf.integrableOn integrable_normPdf.integrableOn

lemma normCdf_mono : Monotone normCdf := by
  intro x y hxy
  have h : 0 ≤ ∫ t in x..y, normPdf t :=
    intervalIntegral.integral_nonneg hxy fun u _ => normPdf_nonneg u
  have := normCdf_sub_eq x y
  linarith

lemma normCdf_eq_interval (x : ℝ) :
    normCdf x = normCdf 0 + ∫ t in (0 : ℝ)..x, normPdf t := by
  have := normCdf_sub_eq 0 x
  linarith

lemma hasDerivAt_normCdf (x : ℝ) : HasDerivAt normCdf (normPdf x) x := by
  have h : HasDerivAt (fun u => ∫ t in (0 : ℝ)..u, normPdf t) (normPdf x) x :=
    intervalIntegral.integral_hasDerivAt_right
      (integrable_normPdf.intervalIntegrable)
      (continuous_normPdf.stronglyMeasurableAtFilter _ _)
      continuous_normPdf.continuousAt
  have h2 : HasDerivAt (fun u => normCdf 0 + ∫ t in (0 : ℝ)..u, normPdf t) (normPdf x) x :=
    h.const_add _
  refine h2.congr_of_eventuallyEq ?_
  filter_upwards with u
  rw [normCdf_eq_interval]

/-! ## option_pricer.py -/

/-- Term `d1` as computed in `black_scholes_call` / `black_scholes_put`. -/
noncomputable def d1 (S K T r sigma : ℝ) : ℝ :=
  (Real.log (S / K) + (r + 0.5 * sigma ^ 2) * T) / (sigma * Real.sqrt T)

/-- Term `d2 = d1 - sigma * sqrt(T)` as computed in the pricer. -/
noncomputable def d2 (S K T r sigma : ℝ) : ℝ :=
  d1 S K T r sigma - sigma * Real.sqrt T

/-- Function `black_scholes_call` from option_pricer.py. -/
noncomputable def black_scholes_call (S K T r sigma : ℝ) : ℝ :=
  S * normCdf (d1 S K T r sigma) - K * Real.exp (-r * T) * normCdf (d2 S K T r sigma)

/-- Function `black_scholes_put` from option_pricer.py. -/
noncomputable def black_scholes_put (S K T r sigma : ℝ) : ℝ :=
  K * Real.exp (-r * T) * normCdf (-(d2 S K T r sigma)) - S * normCdf (-(d1 S K T r sigma))

/-- Put–call parity holds for the embedded pricer, unconditionally over ℝ. -/
lemma parity_lemma (S K T r sigma : ℝ) :
    black_scholes_call S K T r sigma - black_scholes_put S K T r sigma
      = S - K * Real.exp (-r * T) := by
  have h1 := normCdf_add_neg (d1 S K T r sigma)
  have h2 := normCdf_add_neg (d2 S K T r sigma)
  have e1 : normCdf (-(d1 S K T r sigma)) = 1 - normCdf (d1 S K T r sigma) := by linarith
  have e2 : normCdf (-(d2 S K T r sigma)) = 1 - normCdf (d2 S K T r sigma) := by linarith
  rw [black_scholes_call, black_scholes_put, e1, e2]
  ring

/-! ## greeks.py — class OptionGreeks (each method recomputes d1/d2 inline) -/

namespace OptionGreeks

/-- Method `OptionGreeks.delta_call`. -/
noncomputable def delta_call (S K T r sigma : ℝ) : ℝ :=
  normCdf ((Real.log (S / K) + (r + 0.5 * sigma ^ 2) * T) / (sigma * Real.sqrt T))

/-- Method `OptionGreeks.delta_put`. -/
noncomputable def delta_put (S K T r sigma : ℝ) : ℝ :=
  normCdf ((Real.log (S / K) + (r + 0.5 * sigma ^ 2) * T) / (sigma * Real.sqrt T)) - 1

/-- Method `OptionGreeks.gamma`. -/
noncomputable def gamma (S K T r sigma : ℝ) : ℝ :=
  normPdf ((Real.log (S / K) + (r + 0.5 * sigma ^ 2) * T) / (sigma * Real.sqrt T))
    / (S * sigma * Real.sqrt T)

/-- Method `OptionGreeks.vega`. -/
noncomputable def vega (S K T r sigma : ℝ) : ℝ :=
  S * normPdf ((Real.log (S / K) + (r + 0.5 * sigma ^ 2) * T) / (sigma * Real.sqrt T))
    * Real.sqrt T / 100

/-- Method `OptionGreeks.rho_call`: note the source computes `d2` directly as
`(log(S/K) + (r - 0.5*sigma**2)*T) / (sigma*sqrt(T))` rather than `d1 - sigma*sqrt(T)`. -/
noncomputable def rho_call (S K T r sigma : ℝ) : ℝ :=
  K * T * Real.exp (-r * T)
    * normCdf ((Real.log (S / K) + (r - 0.5 * sigma ^ 2) * T) / (sigma * Real.sqrt T)) / 100

/-- Method `OptionGreeks.rho_put`. -/
noncomputable def rho_put (S K T r sigma : ℝ) : ℝ :=
  -K * T * Real.exp (-r * T)
    * normCdf (-((Real.log (S / K) + (r - 0.5 * sigma ^ 2) * T) / (sigma * Real.sqrt T))) / 100

end OptionGreeks

/-! ## monte_carlo.py

The NumPy global random state is modelled explicitly: `np.random.seed(seed)` resets the
state to `⟨seed, 0⟩`, and each standard-normal draw reads the ambient Gaussian source `g`
at the current stream position and advances it.  `g seed k` is the `k`-th standard-normal
variate produced after seeding with `seed`. -/

/-- The NumPy process-global RNG state: the active stream (set by `np.random.seed`)
and the position within it. -/
structure NpRng where
  seedVal : ℕ
  pos : ℕ

/-- Step count `steps = int(T * 252)` from monte_carlo.py; Python `int()` truncates toward zero,
which agrees with `⌊·⌋.toNat` on the nonnegative arguments the pricer is run on. -/
noncomputable def mcSteps (T : ℝ) : ℕ := (⌊T * 252⌋).toNat

/-- Step size `dt = T / 252` from monte_carlo.py (fixed, not `T / steps`). -/
noncomputable def mcDt (T : ℝ) : ℝ := T / 252

/-- One simulated GBM path, read off at column `t`:
`paths[i, t] = paths[i, t-1] * exp(drift + vol * Z_t[i])` with
`Z_t[i] = g ((t-1) * N + i)` — step `t` draws `standard_normal(N)`, consuming stream
positions `(t-1)*N .. t*N - 1`. -/
noncomputable def pathStep (g : ℕ → ℝ) (drift vol : ℝ) (N i : ℕ) (S : ℝ) : ℕ → ℝ
  | 0 => S
  | t + 1 => pathStep g drift vol N i S t * Real.exp (drift + vol * g (t * N + i))

/-- Function `monte_carlo_call` from monte_carlo.py, threading the global RNG state `st`.
The first action is `np.random.seed(seed)`, discarding `st`. -/
noncomputable def monte_carlo_call (g : ℕ → ℕ → ℝ) (S K T r sigma : ℝ) (N seed : ℕ)
    (st : NpRng) : ℝ × NpRng :=
  let drift := (r - 0.5 * sigma ^ 2) * mcDt T
  let vol := sigma * Real.sqrt (mcDt T)
  let payoff := fun i => max (pathStep (g seed) drift vol N i S (mcSteps T) - K) 0
  (Real.exp (-r * T) * ((∑ i in Finset.range N, payoff i) / N),
   ⟨seed, mcSteps T * N⟩)

/-- Function `monte_carlo_put` from monte_carlo.py. -/
noncomputable def monte_carlo_put (g : ℕ → ℕ → ℝ) (S K T r sigma : ℝ) (N seed : ℕ)
    (st : NpRng) : ℝ × NpRng :=
  let drift := (r - 0.5 * sigma ^ 2) * mcDt T
  let vol := sigma * Real.sqrt (mcDt T)
  let payoff := fun i => max (K - pathStep (g seed) drift vol N i S (mcSteps T)) 0
  (Real.exp (-r * T) * ((∑ i in Finset.range N, payoff i) / N),
   ⟨seed, mcSteps T * N⟩)

/-! ## implied_volatility.py

The Python-level exception behaviour of the objective matters here, so the pricer is
wrapped in `Except`: `math.log` raises `ValueError` on a nonpositive argument (after `S/K`
raises `ZeroDivisionError` when `K = 0`), `math.sqrt` raises `ValueError` on a negative
argument, and the division by `sigma * sqrt(T)` raises `ZeroDivisionError` when it is
zero.  `scipy.optimize.minimize_scalar` is external code and is abstracted as an
arbitrary function `minimize` that evaluates the objective and either produces a value or
propagates an exception the objective raised. -/

/-- Exceptions the Python objective can raise. -/
inductive PyErr where
  | valueError : PyErr
  | zeroDivisionError : PyErr
deriving DecidableEq, Repr

open Classical in
/-- Wrapper for `black_scholes_call` with the Python raise behaviour on invalid inputs. -/
noncomputable def black_scholes_call_py (S K T r sigma : ℝ) : Except PyErr ℝ :=
  if K = 0 then .error .zeroDivisionError
  else if S / K ≤ 0 then .error .valueError
  else if T < 0 then .error .valueError
  else if sigma * Real.sqrt T = 0 then .error .zeroDivisionError
  else .ok (black_scholes_call S K T r sigma)

open Classical in
/-- Wrapper for `black_scholes_put` with the Python raise behaviour on invalid inputs. -/
noncomputable def black_scholes_put_py (S K T r sigma : ℝ) : Except PyErr ℝ :=
  if K = 0 then .error .zeroDivisionError
  else if S / K ≤ 0 then .error .valueError
  else if T < 0 then .error .valueError
  else if sigma * Real.sqrt T = 0 then .error .zeroDivisionError
  else .ok (black_scholes_put S K T r sigma)

namespace ImpliedVolatility

/-- The objective closure inside `ImpliedVolatility.solve_call`. -/
noncomputable def objective_call (S K T r market_price sigma : ℝ) : Except PyErr ℝ :=
  (black_scholes_call_py S K T r sigma).map fun c => |c - market_price|

/-- The objective closure inside `ImpliedVolatility.solve_put`. -/
noncomputable def objective_put (S K T r market_price sigma : ℝ) : Except PyErr ℝ :=
  (black_scholes_put_py S K T r sigma).map fun c => |c - market_price|

/-- Method `ImpliedVolatility.solve_call`: `try: return minimize_scalar(...).x except: return
initial_guess`.  `minimize` stands for `scipy.optimize.minimize_scalar` with
`bounds=(0.01, 3.0), method=bounded`. -/
noncomputable def solve_call (minimize : (ℝ → Except PyErr ℝ) → Except PyErr ℝ)
    (S K T r market_price initial_guess : ℝ) : ℝ :=
  match minimize (fun sigma => objective_call S K T r market_price sigma) with
  | .ok x => x
  | .error _ => initial_guess

/-- Method `ImpliedVolatility.solve_put`. -/
noncomputable def solve_put (minimize : (ℝ → Except PyErr ℝ) → Except PyErr ℝ)
    (S K T r market_price initial_guess : ℝ) : ℝ :=
  match minimize (fun sigma => objective_put S K T r market_price sigma) with
  | .ok x => x
  | .error _ => initial_guess

end ImpliedVolatility

/-! ## Analytical facts about the pricer -/

lemma sqrt_T_ne_zero {T : ℝ} (hT : 0 < T) : Real.sqrt T ≠ 0 :=
  ne_of_gt (Real.sqrt_pos.2 hT)

/-- The Black–Scholes kernel identity `S·φ(d1) = K·e^{-rT}·φ(d2)`. -/
lemma bs_pdf_identity (S K T r sigma : ℝ) (hS : 0 < S) (hK : 0 < K) (hT : 0 < T)
    (hsig : sigma ≠ 0) :
    S * normPdf (d1 S K T r sigma) = K * Real.exp (-r * T) * normPdf (d2 S K T r sigma) := by
  have hsk : 0 < S / K := div_pos hS hK
  have ha : sigma * Real.sqrt T ≠ 0 := mul_ne_zero hsig (sqrt_T_ne_zero hT)
  have had1 : (sigma * Real.sqrt T) * d1 S K T r sigma
      = Real.log (S / K) + (r + 0.5 * sigma ^ 2) * T := by
    rw [d1]; field_simp
  have hsq : (Real.sqrt T) ^ 2 = T := Real.sq_sqrt hT.le
  have hdiff : (d2 S K T r sigma) ^ 2 - (d1 S K T r sigma) ^ 2
      = -(2 * (Real.log (S / K) + r * T)) := by
    have h0 : (d2 S K T r sigma) ^ 2 - (d1 S K T r sigma) ^ 2
        = (sigma * Real.sqrt T) ^ 2 - 2 * ((sigma * Real.sqrt T) * d1 S K T r sigma) := by
      rw [d2]; ring
    rw [h0, had1, mul_pow, hsq]; ring
  have e1 : (-(d1 S K T r sigma ^ 2) / 2 : ℝ)
      = -(d2 S K T r sigma ^ 2) / 2 + (-(Real.log (S / K)) + -(r * T)) := by linarith
  have hexp : Real.exp (-(d1 S K T r sigma ^ 2) / 2) * S
      = Real.exp (-(d2 S K T r sigma ^ 2) / 2) * (K * Real.exp (-r * T)) := by
    rw [e1, Real.exp_add, Real.exp_add, Real.exp_neg, Real.exp_log hsk]
    rw [show (-(r * T) : ℝ) = -r * T by ring]
    field_simp
  unfold normPdf
  calc S * (Real.exp (-(d1 S K T r sigma ^ 2) / 2) / Real.sqrt (2 * π))
      = (Real.exp (-(d1 S K T r sigma ^ 2) / 2) * S) / Real.sqrt (2 * π) := by ring
    _ = (Real.exp (-(d2 S K T r sigma ^ 2) / 2) * (K * Real.exp (-r * T)))
          / Real.sqrt (2 * π) := by rw [hexp]
    _ = K * Real.exp (-r * T) * (Real.exp (-(d2 S K T r sigma ^ 2) / 2)
          / Real.sqrt (2 * π)) := by ring

/-- Derivative of `d1` in the spot variable. -/
lemma hasDerivAt_d1_S (K T r sigma S : ℝ) (hS : 0 < S) (hK : 0 < K) :
    HasDerivAt (fun s => d1 s K T r sigma) ((1 / S) / (sigma * Real.sqrt T)) S := by
  have h1 : HasDerivAt (fun s : ℝ => s / K) (1 / K) S := by
    simpa using (hasDerivAt_id S).div_const K
  have h2 : HasDerivAt (fun s : ℝ => Real.log (s / K)) ((1 / K) / (S / K)) S :=
    h1.log (ne_of_gt (div_pos hS hK))
  have h3 : ((1 / K) / (S / K) : ℝ) = 1 / S := by
    field_simp
  rw [h3] at h2
  exact (h2.add_const ((r + 0.5 * sigma ^ 2) * T)).div_const (sigma * Real.sqrt T)

/-- Derivative of the call price in the spot: the delta `Φ(d1)`. -/
lemma hasDerivAt_call_S (K T r sigma S : ℝ) (hS : 0 < S) (hK : 0 < K) (hT : 0 < T)
    (hsig : sigma ≠ 0) :
    HasDerivAt (fun s => black_scholes_call s K T r sigma) (normCdf (d1 S K T r sigma)) S := by
  set w := ((1 / S) / (sigma * Real.sqrt T)) with hw
  have hd1 : HasDerivAt (fun s => d1 s K T r sigma) w S := hasDerivAt_d1_S K T r sigma S hS hK
  have hd2 : HasDerivAt (fun s => d2 s K T r sigma) w S := hd1.sub_const (sigma * Real.sqrt T)
  have hc1 : HasDerivAt (fun s => normCdf (d1 s K T r sigma))
      (normPdf (d1 S K T r sigma) * w) S := (hasDerivAt_normCdf _).comp S hd1
  have hc2 : HasDerivAt (fun s => normCdf (d2 s K T r sigma))
      (normPdf (d2 S K T r sigma) * w) S := (hasDerivAt_normCdf _).comp S hd2
  have hmul : HasDerivAt (fun s => s * normCdf (d1 s K T r sigma))
      (1 * normCdf (d1 S K T r sigma) + S * (normPdf (d1 S K T r sigma) * w)) S :=
    (hasDerivAt_id S).mul hc1
  have hKe : HasDerivAt (fun s => K * Real.exp (-r * T) * normCdf (d2 s K T r sigma))
      (K * Real.exp (-r * T) * (normPdf (d2 S K T r sigma) * w)) S := hc2.const_mul _
  have h := hmul.sub hKe
  have hid := bs_pdf_identity S K T r sigma hS hK hT hsig
  have heq : 1 * normCdf (d1 S K T r sigma) + S * (normPdf (d1 S K T r sigma) * w)
      - K * Real.exp (-r * T) * (normPdf (d2 S K T r sigma) * w)
      = normCdf (d1 S K T r sigma) := by
    linear_combination w * hid
  rw [heq] at h
  exact h

/-- Derivative of `d1` in the volatility variable (raw quotient-rule form). -/
lemma hasDerivAt_d1_sigma (S K T r sigma : ℝ) (hT : 0 < T) (hsig : sigma ≠ 0) :
    HasDerivAt (fun v => d1 S K T r v)
      ((sigma * T * (sigma * Real.sqrt T)
          - (Real.log (S / K) + (r + 0.5 * sigma ^ 2) * T) * Real.sqrt T)
        / (sigma * Real.sqrt T) ^ 2) sigma := by
  have ha : sigma * Real.sqrt T ≠ 0 := mul_ne_zero hsig (sqrt_T_ne_zero hT)
  have hu : HasDerivAt (fun v : ℝ => Real.log (S / K) + (r + 0.5 * v ^ 2) * T)
      (sigma * T) sigma := by
    have hp : HasDerivAt (fun v : ℝ => v ^ 2) (2 * sigma) sigma := by
      simpa using (hasDerivAt_pow 2 sigma)
    have h := (((hp.const_mul (0.5 : ℝ)).const_add r).mul_const T).const_add (Real.log (S / K))
    convert h using 1
    ring
  have hv : HasDerivAt (fun v : ℝ => v * Real.sqrt T) (Real.sqrt T) sigma := by
    simpa using (hasDerivAt_id sigma).mul_const (Real.sqrt T)
  exact hu.div hv ha

/-- Derivative of the call price in the volatility: the raw vega `S·φ(d1)·√T`. -/
lemma hasDerivAt_call_sigma (S K T r sigma : ℝ) (hS : 0 < S) (hK : 0 < K) (hT : 0 < T)
    (hsig : sigma ≠ 0) :
    HasDerivAt (fun v => black_scholes_call S K T r v)
      (S * normPdf (d1 S K T r sigma) * Real.sqrt T) sigma := by
  set D := ((sigma * T * (sigma * Real.sqrt T)
      - (Real.log (S / K) + (r + 0.5 * sigma ^ 2) * T) * Real.sqrt T)
    / (sigma * Real.sqrt T) ^ 2) with hD
  have hd1 : HasDerivAt (fun v => d1 S K T r v) D sigma := hasDerivAt_d1_sigma S K T r sigma hT hsig
  have hs : HasDerivAt (fun v : ℝ => v * Real.sqrt T) (Real.sqrt T) sigma := by
    simpa using (hasDerivAt_id sigma).mul_const (Real.sqrt T)
  have hd2 : HasDerivAt (fun v => d2 S K T r v) (D - Real.sqrt T) sigma := hd1.sub hs
  have hc1 : HasDerivAt (fun v => normCdf (d1 S K T r v))
      (normPdf (d1 S K T r sigma) * D) sigma := (hasDerivAt_normCdf _).comp sigma hd1
  have hc2 : HasDerivAt (fun v => normCdf (d2 S K T r v))
      (normPdf (d2 S K T r sigma) * (D - Real.sqrt T)) sigma :=
    (hasDerivAt_normCdf _).comp sigma hd2
  have h := (hc1.const_mul S).sub (hc2.const_mul (K * Real.exp (-r * T)))
  have hid := bs_pdf_identity S K T r sigma hS hK hT hsig
  have heq : S * (normPdf (d1 S K T r sigma) * D)
      - K * Real.exp (-r * T) * (normPdf (d2 S K T r sigma) * (D - Real.sqrt T))
      = S * normPdf (d1 S K T r sigma) * Real.sqrt T := by
    linear_combination (D - Real.sqrt T) * hid
  rw [heq] at h
  exact h

/-- The call price is monotone in the spot on `(0, ∞)`. -/
lemma call_monotoneOn_S (K T r sigma : ℝ) (hK : 0 < K) (hT : 0 < T) (hsig : 0 < sigma) :
    MonotoneOn (fun s => black_scholes_call s K T r sigma) (Ioi (0 : ℝ)) := by
  apply monotoneOn_of_deriv_nonneg (convex_Ioi 0)
  · intro x hx
    exact (hasDerivAt_call_S K T r sigma x hx hK hT hsig.ne').differentiableAt.continuousAt.continuousWithinAt
  · rw [interior_Ioi]
    intro x hx
    exact (hasDerivAt_call_S K T r sigma x hx hK hT hsig.ne').differentiableAt.differentiableWithinAt
  · rw [interior_Ioi]
    intro x hx
    rw [(hasDerivAt_call_S K T r sigma x hx hK hT hsig.ne').deriv]
    exact normCdf_nonneg _

/-- The map `s ↦ s - call(s)` is monotone in the spot on `(0, ∞)` (delta is at most one). -/
lemma spot_sub_call_monotoneOn_S (K T r sigma : ℝ) (hK : 0 < K) (hT : 0 < T) (hsig : 0 < sigma) :
    MonotoneOn (fun s => s - black_scholes_call s K T r sigma) (Ioi (0 : ℝ)) := by
  apply monotoneOn_of_deriv_nonneg (convex_Ioi 0)
  · intro x hx
    exact ((hasDerivAt_id' x).sub
      (hasDerivAt_call_S K T r sigma x hx hK hT hsig.ne')).differentiableAt.continuousAt.continuousWithinAt
  · rw [interior_Ioi]
    intro x hx
    exact ((hasDerivAt_id' x).sub
      (hasDerivAt_call_S K T r sigma x hx hK hT hsig.ne')).differentiableAt.differentiableWithinAt
  · rw [interior_Ioi]
    intro x hx
    rw [((hasDerivAt_id' x).sub (hasDerivAt_call_S K T r sigma x hx hK hT hsig.ne')).deriv]
    have := normCdf_le_one (d1 x K T r sigma)
    linarith

/-- The call price is monotone in the volatility on `(0, ∞)`. -/
lemma call_monotoneOn_sigma (S K T r : ℝ) (hS : 0 < S) (hK : 0 < K) (hT : 0 < T) :
    MonotoneOn (fun v => black_scholes_call S K T r v) (Ioi (0 : ℝ)) := by
  apply monotoneOn_of_deriv_nonneg (convex_Ioi 0)
  · intro x hx
    exact (hasDerivAt_call_sigma S K T r x hS hK hT (ne_of_gt hx)).differentiableAt.continuousAt.continuousWithinAt
  · rw [interior_Ioi]
    intro x hx
    exact (hasDerivAt_call_sigma S K T r x hS hK hT (ne_of_gt hx)).differentiableAt.differentiableWithinAt
  · rw [interior_Ioi]
    intro x hx
    rw [(hasDerivAt_call_sigma S K T r x hS hK hT (ne_of_gt hx)).deriv]
    have h1 := normPdf_nonneg (d1 S K T r x)
    have h2 := Real.sqrt_nonneg T
    positivity

/-- The put price, written through parity. -/
lemma put_eq_parity (S K T r sigma : ℝ) :
    black_scholes_put S K T r sigma
      = black_scholes_call S K T r sigma - S + K * Real.exp (-r * T) := by
  have := parity_lemma S K T r sigma
  linarith

/-! ## Helper lemmas for the simulation and solver embeddings -/

lemma pathStep_zero (g : ℕ → ℝ) (drift vol : ℝ) (N i : ℕ) (S : ℝ) :
    pathStep g drift vol N i S 0 = S := rfl

/-- With an all-zero Gaussian stream the simulated path is the pure drift path. -/
lemma pathStep_zero_gauss (drift vol : ℝ) (N i : ℕ) (S : ℝ) (t : ℕ) :
    pathStep (fun _ => 0) drift vol N i S t = S * Real.exp (t * drift) := by
  induction t with
  | zero => simp [pathStep]
  | succ t ih =>
      show pathStep (fun _ => 0) drift vol N i S t * Real.exp (drift + vol * 0)
        = S * Real.exp ((t + 1 : ℕ) * drift)
      rw [ih, mul_zero, add_zero, mul_assoc, ← Real.exp_add]
      push_cast
      ring_nf

lemma mcSteps_eq (T : ℝ) (n : ℕ) (h1 : (n : ℝ) ≤ T * 252) (h2 : T * 252 < n + 1) :
    mcSteps T = n := by
  rw [mcSteps]
  have h : ⌊T * 252⌋ = (n : ℤ) := by
    rw [Int.floor_eq_iff]
    constructor
    · exact_mod_cast h1
    · push_cast
      exact h2
  rw [h]
  simp

lemma bs_call_py_err_of_nonpos (S K T r sigma : ℝ) (hK : K ≠ 0) (h : S / K ≤ 0) :
    black_scholes_call_py S K T r sigma = Except.error PyErr.valueError := by
  rw [black_scholes_call_py, if_neg hK, if_pos h]

lemma bs_put_py_err_of_nonpos (S K T r sigma : ℝ) (hK : K ≠ 0) (h : S / K ≤ 0) :
    black_scholes_put_py S K T r sigma = Except.error PyErr.valueError := by
  rw [black_scholes_put_py, if_neg hK, if_pos h]

lemma objective_call_err_of_nonpos (S K T r mp sigma : ℝ) (hK : K ≠ 0) (h : S / K ≤ 0) :
    ImpliedVolatility.objective_call S K T r mp sigma = Except.error PyErr.valueError := by
  rw [ImpliedVolatility.objective_call, bs_call_py_err_of_nonpos S K T r sigma hK h]
  rfl

lemma objective_put_err_of_nonpos (S K T r mp sigma : ℝ) (hK : K ≠ 0) (h : S / K ≤ 0) :
    ImpliedVolatility.objective_put S K T r mp sigma = Except.error PyErr.valueError := by
  rw [ImpliedVolatility.objective_put, bs_put_py_err_of_nonpos S K T r sigma hK h]
  rfl

/-! ## Claim theorems -/

/-- C4: two simulation-pricer calls (call or put) with identical inputs `(S, K, T, r, sigma)`,
identical path count `N` and identical seed return bit-identical prices, whatever the global
RNG state was before each call — `np.random.seed(seed)` resets the stream, so the price is a
function of the arguments alone.  The third and fourth conjuncts run the second call on the
RNG state left behind by the first. -/
theorem monte_carlo_seed_reproducibility (g : ℕ → ℕ → ℝ) (S K T r sigma : ℝ) (N seed : ℕ)
    (st st' : NpRng) :
    (monte_carlo_call g S K T r sigma N seed st).1
      = (monte_carlo_call g S K T r sigma N seed st').1
    ∧ (monte_carlo_put g S K T r sigma N seed st).1
      = (monte_carlo_put g S K T r sigma N seed st').1
    ∧ (monte_carlo_call g S K T r sigma N seed
        ((monte_carlo_call g S K T r sigma N seed st).2)).1
      = (monte_carlo_call g S K T r sigma N seed st).1
    ∧ (monte_carlo_put g S K T r sigma N seed
        ((monte_carlo_put g S K T r sigma N seed st).2)).1
      = (monte_carlo_put g S K T r sigma N seed st).1 :=
  ⟨rfl, rfl, rfl, rfl⟩

/-- C5: put–call parity `call − put = S − K·e^{−rT}` holds exactly over real arithmetic for
all valid inputs, hence in particular within absolute tolerance `1e-9`. -/
theorem put_call_parity (S K T r sigma : ℝ) (hS : 0 < S) (hK : 0 < K) (hT : 0 < T)
    (hsig : 0 < sigma) :
    black_scholes_call S K T r sigma - black_scholes_put S K T r sigma
      = S - K * Real.exp (-r * T)
    ∧ |black_scholes_call S K T r sigma - black_scholes_put S K T r sigma
        - (S - K * Real.exp (-r * T))| ≤ 1 / 10 ^ 9 := by
  have h := parity_lemma S K T r sigma
  refine ⟨h, ?_⟩
  rw [h, sub_self, abs_zero]
  norm_num

theorem put_call_parity_witness :
    black_scholes_call 1 1 1 0 1 - black_scholes_put 1 1 1 0 1
      = 1 - 1 * Real.exp (-0 * 1)
    ∧ |black_scholes_call 1 1 1 0 1 - black_scholes_put 1 1 1 0 1
        - (1 - 1 * Real.exp (-0 * 1))| ≤ 1 / 10 ^ 9 :=
  put_call_parity 1 1 1 0 1 (by norm_num) (by norm_num) (by norm_num) (by norm_num)

/-- C6: for all valid inputs the analytical call price is non-decreasing in `S` and in
`sigma`, and the analytical put price is non-increasing in `S` and non-decreasing in
`sigma`. -/
theorem bs_price_monotonicity (K T r S₁ S₂ sigma₁ sigma₂ : ℝ)
    (hK : 0 < K) (hT : 0 < T) (hS₁ : 0 < S₁) (hS : S₁ ≤ S₂)
    (hsig₁ : 0 < sigma₁) (hsig : sigma₁ ≤ sigma₂) :
    black_scholes_call S₁ K T r sigma₁ ≤ black_scholes_call S₂ K T r sigma₁
    ∧ black_scholes_call S₁ K T r sigma₁ ≤ black_scholes_call S₁ K T r sigma₂
    ∧ black_scholes_put S₂ K T r sigma₁ ≤ black_scholes_put S₁ K T r sigma₁
    ∧ black_scholes_put S₁ K T r sigma₁ ≤ black_scholes_put S₁ K T r sigma₂ := by
  have hS₂ : 0 < S₂ := lt_of_lt_of_le hS₁ hS
  have hsig₂ : 0 < sigma₂ := lt_of_lt_of_le hsig₁ hsig
  have hcS := call_monotoneOn_S K T r sigma₁ hK hT hsig₁
    (mem_Ioi.2 hS₁) (mem_Ioi.2 hS₂) hS
  have hcSig := call_monotoneOn_sigma S₁ K T r hS₁ hK hT
    (mem_Ioi.2 hsig₁) (mem_Ioi.2 hsig₂) hsig
  refine ⟨hcS, hcSig, ?_, ?_⟩
  · have h := spot_sub_call_monotoneOn_S K T r sigma₁ hK hT hsig₁
      (mem_Ioi.2 hS₁) (mem_Ioi.2 hS₂) hS
    have p1 := put_eq_parity S₁ K T r sigma₁
    have p2 := put_eq_parity S₂ K T r sigma₁
    simp only at h
    linarith
  · have p1 := put_eq_parity S₁ K T r sigma₁
    have p2 := put_eq_parity S₁ K T r sigma₂
    linarith

theorem bs_price_monotonicity_witness :
    black_scholes_call 1 1 1 0 1 ≤ black_scholes_call 2 1 1 0 1
    ∧ black_scholes_call 1 1 1 0 1 ≤ black_scholes_call 1 1 1 0 2
    ∧ black_scholes_put 2 1 1 0 1 ≤ black_scholes_put 1 1 1 0 1
    ∧ black_scholes_put 1 1 1 0 1 ≤ black_scholes_put 1 1 1 0 2 :=
  bs_price_monotonicity 1 1 0 1 2 1 2 (by norm_num) (by norm_num) (by norm_num)
    (by norm_num) (by norm_num) (by norm_num)

/-- C7: the Greeks engine methods `rho_call`/`rho_put` equal `K·T·e^{−rT}·Φ(d2)/100` and
`−K·T·e^{−rT}·Φ(−d2)/100` with `d2` the pricer term `d1 − sigma·√T`: the directly
computed `(ln(S/K) + (r − 0.5σ²)T)/(σ√T)` coincides with it over real arithmetic. -/
theorem rho_reuses_pricer_d2 (S K T r sigma : ℝ) (hS : 0 < S) (hK : 0 < K) (hT : 0 < T)
    (hsig : 0 < sigma) :
    OptionGreeks.rho_call S K T r sigma
      = K * T * Real.exp (-r * T) * normCdf (d1 S K T r sigma - sigma * Real.sqrt T) / 100
    ∧ OptionGreeks.rho_put S K T r sigma
      = -K * T * Real.exp (-r * T)
          * normCdf (-(d1 S K T r sigma - sigma * Real.sqrt T)) / 100
    ∧ d2 S K T r sigma = d1 S K T r sigma - sigma * Real.sqrt T := by
  have hsq : Real.sqrt T ^ 2 = T := Real.sq_sqrt hT.le
  have hsT : Real.sqrt T ≠ 0 := sqrt_T_ne_zero hT
  have key : (Real.log (S / K) + (r - 0.5 * sigma ^ 2) * T) / (sigma * Real.sqrt T)
      = d1 S K T r sigma - sigma * Real.sqrt T := by
    rw [d1]
    field_simp
    linear_combination (sigma ^ 2) * hsq
  exact ⟨by rw [OptionGreeks.rho_call, key], by rw [OptionGreeks.rho_put, key], rfl⟩

theorem rho_reuses_pricer_d2_witness :
    OptionGreeks.rho_call 1 1 1 0 1
      = 1 * 1 * Real.exp (-0 * 1) * normCdf (d1 1 1 1 0 1 - 1 * Real.sqrt 1) / 100
    ∧ OptionGreeks.rho_put 1 1 1 0 1
      = -1 * 1 * Real.exp (-0 * 1) * normCdf (-(d1 1 1 1 0 1 - 1 * Real.sqrt 1)) / 100
    ∧ d2 1 1 1 0 1 = d1 1 1 1 0 1 - 1 * Real.sqrt 1 :=
  rho_reuses_pricer_d2 1 1 1 0 1 (by norm_num) (by norm_num) (by norm_num) (by norm_num)

/-- C8: the Greeks respect their sign conventions for all valid inputs:
`delta_call ∈ [0, 1]`, `delta_put ∈ [-1, 0]`, `gamma ≥ 0`, `vega ≥ 0`. -/
theorem greek_sign_conventions (S K T r sigma : ℝ) (hS : 0 < S) (hK : 0 < K) (hT : 0 < T)
    (hsig : 0 < sigma) :
    (0 ≤ OptionGreeks.delta_call S K T r sigma ∧ OptionGreeks.delta_call S K T r sigma ≤ 1)
    ∧ (-1 ≤ OptionGreeks.delta_put S K T r sigma
        ∧ OptionGreeks.delta_put S K T r sigma ≤ 0)
    ∧ 0 ≤ OptionGreeks.gamma S K T r sigma
    ∧ 0 ≤ OptionGreeks.vega S K T r sigma := by
  refine ⟨⟨normCdf_nonneg _, normCdf_le_one _⟩, ⟨?_, ?_⟩, ?_, ?_⟩
  · have := normCdf_nonneg
      ((Real.log (S / K) + (r + 0.5 * sigma ^ 2) * T) / (sigma * Real.sqrt T))
    rw [OptionGreeks.delta_put]
    linarith
  · have := normCdf_le_one
      ((Real.log (S / K) + (r + 0.5 * sigma ^ 2) * T) / (sigma * Real.sqrt T))
    rw [OptionGreeks.delta_put]
    linarith
  · exact div_nonneg (normPdf_nonneg _) (by positivity)
  · rw [OptionGreeks.vega]
    have := normPdf_nonneg
      ((Real.log (S / K) + (r + 0.5 * sigma ^ 2) * T) / (sigma * Real.sqrt T))
    positivity

theorem greek_sign_conventions_witness :
    (0 ≤ OptionGreeks.delta_call 1 1 1 0 1 ∧ OptionGreeks.delta_call 1 1 1 0 1 ≤ 1)
    ∧ (-1 ≤ OptionGreeks.delta_put 1 1 1 0 1 ∧ OptionGreeks.delta_put 1 1 1 0 1 ≤ 0)
    ∧ 0 ≤ OptionGreeks.gamma 1 1 1 0 1
    ∧ 0 ≤ OptionGreeks.vega 1 1 1 0 1 :=
  greek_sign_conventions 1 1 1 0 1 (by norm_num) (by norm_num) (by norm_num) (by norm_num)

/-- C9: the implied-volatility solvers never propagate an exception: their return type is a
plain real, and whenever the internal minimization raises (is an `Except.error`, for any
error and any minimizer behaviour, hence in particular for domain-invalid `S, K, T ≤ 0`),
the bare `except` clause returns `initial_guess` normally. -/
theorem solve_catch_returns_guess (minimize : (ℝ → Except PyErr ℝ) → Except PyErr ℝ)
    (S K T r market_price guess : ℝ) (e : PyErr) :
    (minimize (fun sigma => ImpliedVolatility.objective_call S K T r market_price sigma)
        = Except.error e →
      ImpliedVolatility.solve_call minimize S K T r market_price guess = guess)
    ∧ (minimize (fun sigma => ImpliedVolatility.objective_put S K T r market_price sigma)
        = Except.error e →
      ImpliedVolatility.solve_put minimize S K T r market_price guess = guess) := by
  constructor
  · intro h
    rw [ImpliedVolatility.solve_call, h]
  · intro h
    rw [ImpliedVolatility.solve_put, h]

theorem solve_catch_returns_guess_witness :
    ImpliedVolatility.solve_call (fun f => f (3 / 2)) 0 1 1 0 5 (3 / 10) = 3 / 10
    ∧ ImpliedVolatility.solve_put (fun f => f (3 / 2)) 0 1 1 0 5 (3 / 10) = 3 / 10 := by
  have h := solve_catch_returns_guess (fun f => f (3 / 2)) 0 1 1 0 5 (3 / 10)
    PyErr.valueError
  refine ⟨h.1 ?_, h.2 ?_⟩
  · show ImpliedVolatility.objective_call 0 1 1 0 5 (3 / 2) = Except.error PyErr.valueError
    exact objective_call_err_of_nonpos 0 1 1 0 5 (3 / 2) (by norm_num) (by norm_num)
  · show ImpliedVolatility.objective_put 0 1 1 0 5 (3 / 2) = Except.error PyErr.valueError
    exact objective_put_err_of_nonpos 0 1 1 0 5 (3 / 2) (by norm_num) (by norm_num)

/-- C10: for maturities `0 < T < 1/252` the simulation computes `int(T*252) = 0` steps, the
path loop runs zero times, every terminal price equals `S`, and the call (resp. put) price
is exactly `e^{-rT}·max(S-K, 0)` (resp. `e^{-rT}·max(K-S, 0)`), independent of `sigma`,
the Gaussian stream, `N ≥ 1` and the seed. -/
theorem mc_subday_maturity_intrinsic (g : ℕ → ℕ → ℝ) (S K T r sigma : ℝ) (N seed : ℕ)
    (st : NpRng) (hT0 : 0 < T) (hT : T < 1 / 252) (hN : 1 ≤ N) :
    mcSteps T = 0
    ∧ (monte_carlo_call g S K T r sigma N seed st).1 = Real.exp (-r * T) * max (S - K) 0
    ∧ (monte_carlo_put g S K T r sigma N seed st).1 = Real.exp (-r * T) * max (K - S) 0 := by
  have hsteps : mcSteps T = 0 := by
    apply mcSteps_eq T 0
    · push_cast
      nlinarith
    · push_cast
      nlinarith
  have hNne : (N : ℝ) ≠ 0 := Nat.cast_ne_zero.2 (by omega)
  refine ⟨hsteps, ?_, ?_⟩
  · simp only [monte_carlo_call, hsteps, pathStep_zero]
    rw [Finset.sum_const, Finset.card_range, nsmul_eq_mul, mul_div_cancel_left₀ _ hNne]
  · simp only [monte_carlo_put, hsteps, pathStep_zero]
    rw [Finset.sum_const, Finset.card_range, nsmul_eq_mul, mul_div_cancel_left₀ _ hNne]

theorem mc_subday_maturity_intrinsic_witness :
    mcSteps (1 / 504) = 0
    ∧ (monte_carlo_call (fun _ _ => 0) 2 1 (1 / 504) 0 1 1 0 ⟨0, 0⟩).1
        = Real.exp (-0 * (1 / 504)) * max (2 - 1) 0
    ∧ (monte_carlo_put (fun _ _ => 0) 2 1 (1 / 504) 0 1 1 0 ⟨0, 0⟩).1
        = Real.exp (-0 * (1 / 504)) * max (1 - 2) 0 :=
  mc_subday_maturity_intrinsic (fun _ _ => 0) 2 1 (1 / 504) 0 1 1 0 ⟨0, 0⟩
    (by norm_num) (by norm_num) (by norm_num)

/-- C1 (against the claim): with `sigma = -1 ≤ 0` the simulation pricer performs no
parameter check and runs to completion, returning the ordinary discounted-payoff value —
no `InvalidParameterError` is signalled (none exists in the code); and the analytical
pricer surfaces invalid inputs only as the Python `ValueError` from `math.log`. -/
theorem mc_runs_on_nonpositive_sigma :
    (monte_carlo_call (fun _ _ => 0) 2 1 1 0 (-1) 1 0 ⟨0, 0⟩).1
      = 2 * Real.exp (-(1 / 2 : ℝ)) - 1
    ∧ black_scholes_call_py (-1) 1 1 0 1 = Except.error PyErr.valueError := by
  constructor
  · have hsteps : mcSteps 1 = 252 := mcSteps_eq 1 252 (by norm_num) (by norm_num)
    simp only [monte_carlo_call, hsteps]
    rw [Finset.sum_range_one, pathStep_zero_gauss]
    have hdrift : ((252 : ℕ) : ℝ) * ((0 - 0.5 * (-1 : ℝ) ^ 2) * mcDt 1) = -(1 / 2) := by
      rw [mcDt]
      norm_num
    rw [hdrift]
    have h2 : Real.exp (1 / 2 : ℝ) < 2 := by
      have hl : (1 / 2 : ℝ) < Real.log 2 := by
        have := Real.log_two_gt_d9
        linarith
      calc Real.exp (1 / 2 : ℝ) < Real.exp (Real.log 2) := Real.exp_lt_exp.2 hl
        _ = 2 := Real.exp_log (by norm_num)
    have hmul : Real.exp (-(1 / 2 : ℝ)) * Real.exp (1 / 2 : ℝ) = 1 := by
      rw [← Real.exp_add]
      norm_num
    have hpos : (0 : ℝ) ≤ 2 * Real.exp (-(1 / 2 : ℝ)) - 1 := by
      nlinarith [Real.exp_pos (1 / 2 : ℝ), Real.exp_pos (-(1 / 2) : ℝ)]
    rw [max_eq_left hpos]
    norm_num
  · rw [black_scholes_call_py, if_neg (by norm_num : (1 : ℝ) ≠ 0),
      if_pos (by norm_num : (-1 : ℝ) / 1 ≤ 0)]

/-- C2 (against the claim): the simulation uses `steps = int(T·252)` (truncation, not
rounding) and a fixed `dt = T/252` (not `T/steps`), so the simulated increments cover
`steps·dt ≠ T` in general: at `T = 1/100`, `steps = 2` while `round(T·252) = 3`, the
covered horizon is `2·(1/100)/252 ≠ 1/100`; at `T = 2` the horizon covered is 4 years. -/
theorem mc_discretization_mismatch :
    mcSteps (1 / 100) = 2
    ∧ round ((1 / 100 : ℝ) * 252) = 3
    ∧ (mcSteps (1 / 100) : ℝ) * mcDt (1 / 100) ≠ 1 / 100
    ∧ mcDt (1 / 100) ≠ (1 / 100 : ℝ) / ((mcSteps (1 / 100) : ℝ))
    ∧ mcSteps 2 = 504
    ∧ (mcSteps 2 : ℝ) * mcDt 2 = 4 := by
  have h1 : mcSteps (1 / 100) = 2 := mcSteps_eq _ 2 (by norm_num) (by norm_num)
  have h2 : mcSteps 2 = 504 := mcSteps_eq _ 504 (by norm_num) (by norm_num)
  refine ⟨h1, ?_, ?_, ?_, h2, ?_⟩
  · rw [round_eq, show ((1 : ℝ) / 100 * 252 + 1 / 2) = 151 / 50 by norm_num]
    apply Int.floor_eq_iff.2
    constructor
    · norm_num
    · norm_num
  · rw [h1, mcDt]
    norm_num
  · rw [h1, mcDt]
    norm_num
  · rw [h2, mcDt]
    norm_num

/-- C3 (against the claim): the blanket `except` in the solver returns the bare initial guess
`0.3`, indistinguishable from a genuinely converged result of `0.3`: a failing solve
(`S = -100`, the objective raises) and a converged solve return the very same plain real,
so the caller cannot tell fallback from convergence. -/
theorem solve_fallback_indistinguishable :
    ImpliedVolatility.solve_call (fun f => f (3 / 2)) (-100) 100 1 0 10 (3 / 10) = 3 / 10
    ∧ ImpliedVolatility.solve_call (fun _ => Except.ok (3 / 10)) 100 100 1 (5 / 100)
        (1045 / 100) (3 / 10) = 3 / 10
    ∧ ImpliedVolatility.solve_call (fun f => f (3 / 2)) (-100) 100 1 0 10 (3 / 10)
        = ImpliedVolatility.solve_call (fun _ => Except.ok (3 / 10)) 100 100 1 (5 / 100)
            (1045 / 100) (3 / 10) := by
  have hobj : ImpliedVolatility.objective_call (-100) 100 1 0 10 (3 / 2)
      = Except.error PyErr.valueError :=
    objective_call_err_of_nonpos (-100) 100 1 0 10 (3 / 2) (by norm_num) (by norm_num)
  have ha : ImpliedVolatility.solve_call (fun f => f (3 / 2)) (-100) 100 1 0 10 (3 / 10)
      = 3 / 10 := by
    simp [ImpliedVolatility.solve_call, hobj]
  have hb : ImpliedVolatility.solve_call (fun _ => Except.ok (3 / 10)) 100 100 1 (5 / 100)
      (1045 / 100) (3 / 10) = 3 / 10 := by
    simp [ImpliedVolatility.solve_call]
  exact ⟨ha, hb, by rw [ha, hb]⟩
